import Mathlib

/-!
# Verification of `wally-pipelined/src/muldiv/div/div.c`

The program is a single `main` that assigns two `uint64_t` literals `N` and `D`,
computes `Q = N/D`, and prints `N`, `D`, `Q` and `N%D` in hexadecimal, one
`printf` call per value.

The embedding below keeps machine integers as natural numbers with an explicit
reduction modulo `2^64`, makes the two trapping operators `/` and `%` fallible
(`Option`), and threads the text written to standard output through `main`.
-/

namespace Div

/-! ## Machine integers -/

/-- Number of values of a `uint64_t`. -/
def U64_MOD : Nat := 2 ^ 64

/-- Conversion of a mathematical value to `uint64_t` (what an assignment to a
`uint64_t` object does). -/
def toU64 (x : Nat) : Nat := x % U64_MOD

/-- The C operator `/` on two `uint64_t` operands. A zero divisor is undefined
behaviour (a trap on the usual platforms), modelled as `none`. -/
def udiv64 (n d : Nat) : Option Nat :=
  if d = 0 then none else some ((n / d) % U64_MOD)

/-- The C operator `%` on two `uint64_t` operands. A zero divisor is undefined
behaviour (a trap on the usual platforms), modelled as `none`. -/
def urem64 (n d : Nat) : Option Nat :=
  if d = 0 then none else some ((n % d) % U64_MOD)

/-! ## Hexadecimal conversion of `printf` -/

/-- Modelled from the spec: the digit alphabet of the `PRIx64` conversion of the
C library's `printf`, which is not part of the source. Lowercase, `0-9a-f`. -/
def hexDigitChar (d : Nat) : Char :=
  if d < 10 then Char.ofNat (48 + d) else Char.ofNat (87 + d)

/-- Modelled from the spec: the digits of `v` in base 16, most significant
first, as the `PRIx64` conversion of the C library's `printf` (not part of the
source) produces them: no padding, a single digit for zero. The first argument
bounds the number of digits (16 for a 64-bit value). -/
def hexDigits : Nat → Nat → List Nat
  | 0, _ => []
  | fuel + 1, v => if v < 16 then [v] else hexDigits fuel (v / 16) ++ [v % 16]

/-- Modelled from the spec: the text that `printf` writes for `"%" PRIx64` and
the `uint64_t` argument `v` (the C library is not part of the source):
lowercase hexadecimal, no leading zeros, no `0x` prefix, 1 to 16 digits. -/
def toHex (v : Nat) : String :=
  String.mk ((hexDigits 16 v).map hexDigitChar)

/-! ## The program -/

/-- Observable behaviour of a run that reaches the end of `main`. -/
structure Outcome where
  /-- Everything written to standard output, in order. -/
  stdout : String
  /-- Exit status of the process. -/
  exitCode : Int
  /-- Value of the local `Q` at the end of `main`. -/
  Q : Nat
  /-- Value of the expression `N%D` passed to the last `printf`. -/
  R : Nat
deriving DecidableEq, Repr

/-- One call `printf("<label>%" PRIx64 "\n", v)`: appends the label, the
hexadecimal text of `v` and a line break to standard output. -/
def printfLine (out : String) (label : String) (v : Nat) : String :=
  out ++ (label ++ toHex v ++ "\n")

/-- The body of `main` with the two operands as parameters: the statements of
div.c from `Q = N/D;` to the closing brace, in source order. Falling off the end
of `main` gives exit status 0. -/
def evaluator (N D : Nat) : Option Outcome := do
  let Q ← udiv64 N D
  let out := printfLine "" "N = " N
  let out := printfLine out "D = " D
  let out := printfLine out "Q = " Q
  let R ← urem64 N D
  let out := printfLine out "R = " R
  pure { stdout := out, exitCode := 0, Q := Q, R := R }

/-- The literal assigned to `N` in `main`. -/
def N : Nat := toU64 0xc9649f05a8e1a8bb

/-- The literal assigned to `D` in `main`. -/
def D : Nat := toU64 0x82f6747f707af2c0

/-- The program: `main` of div.c. -/
def main : Option Outcome := evaluator N D

/-! ## Spec-side definitions -/

/-- Spec-side definition: 64-bit multiplication, the product reduced modulo
`2^64`. Used only to state the glossary's `R = N − Q·D`. -/
def mul64 (a b : Nat) : Nat := (a * b) % U64_MOD

/-- Spec-side definition: 64-bit subtraction, wrapping modulo `2^64`. Used only
to state the glossary's `R = N − Q·D`. -/
def sub64 (a b : Nat) : Nat := (a + U64_MOD - b % U64_MOD) % U64_MOD

/-- Spec-side definition: the remainder as the spec words it, `N − Q·D`, with
the product and the difference evaluated in 64-bit arithmetic. -/
def specRemainder (n d q : Nat) : Nat := sub64 n (mul64 q d)

/-- Lines of a text: every line runs up to and including its line break; text
after the last line break, if any, forms a final unterminated line. -/
def splitLines : List Char → List (List Char)
  | [] => []
  | c :: cs =>
    if c = '\n' then [c] :: splitLines cs
    else
      match splitLines cs with
      | [] => [[c]]
      | l :: ls => (c :: l) :: ls

/-- Spec-side definition: the character class `[0-9a-f]`. -/
def isLowerHex (c : Char) : Bool :=
  (decide ('0' ≤ c) && decide (c ≤ '9')) || (decide ('a' ≤ c) && decide (c ≤ 'f'))

/-- Spec-side definition: the format property of the spec, a whole line matching
`^[NDQR] = [0-9a-f]{1,16}\n$`: one of the four letters, the three characters
` = `, between 1 and 16 lowercase hexadecimal digits, a line break, nothing
else. -/
def matchesLinePattern (s : List Char) : Bool :=
  ['N', 'D', 'Q', 'R'].contains (s.headD ' ') &&
  ((s.drop 1).take 3 == [' ', '=', ' ']) &&
  ((s.drop 4).getLast? == some '\n') &&
  decide (1 ≤ (s.drop 4).dropLast.length) &&
  decide ((s.drop 4).dropLast.length ≤ 16) &&
  (s.drop 4).dropLast.all isLowerHex

/-- Spec-side definition: the value of a 64-bit pattern read as a
two's-complement signed integer (bit 63 is the sign). -/
def toSigned64 (x : Nat) : Int :=
  if x < 2 ^ 63 then (x : Int) else (x : Int) - (U64_MOD : Int)

/-- Spec-side definition: the 64-bit pattern of a signed value. -/
def ofSigned64 (z : Int) : Nat := (z % (U64_MOD : Int)).toNat

/-- Spec-side definition: the operator `/` as it would act on the same bit
patterns read as `int64_t`: truncation toward zero; a zero divisor and the
overflowing quotient of the least value by `-1` are undefined. -/
def sdiv64 (n d : Nat) : Option Nat :=
  if d = 0 then none
  else if toSigned64 n = -(2 ^ 63) ∧ toSigned64 d = -1 then none
  else some (ofSigned64 ((toSigned64 n).tdiv (toSigned64 d)))

/-- Spec-side definition: the operator `%` as it would act on the same bit
patterns read as `int64_t`: the remainder of the truncating division. -/
def srem64 (n d : Nat) : Option Nat :=
  if d = 0 then none
  else if toSigned64 n = -(2 ^ 63) ∧ toSigned64 d = -1 then none
  else some (ofSigned64 ((toSigned64 n).tmod (toSigned64 d)))

/-- Spec-side definition: the text of a line that stands before its first
lowercase hexadecimal digit. -/
def labelOf (line : List Char) : List Char :=
  line.takeWhile (fun c => !isLowerHex c)

/-- Spec-side definition: the value of one lowercase hexadecimal digit. -/
def hexCharVal (c : Char) : Nat :=
  if c.toNat < 58 then c.toNat - 48 else c.toNat - 87

/-- Spec-side definition: a digit string read as a base-16 numeral, most
significant digit first. -/
def readHex (s : List Char) : Nat :=
  s.foldl (fun acc c => acc * 16 + hexCharVal c) 0

/-- Spec-side definition: the value read back from an output line, the numeral
between the four-character label and the line break. -/
def decodeLine (line : List Char) : Nat :=
  readHex (line.drop 4).dropLast

/-! ## Basic facts about the evaluator -/

theorem evaluator_of_ne_zero (n d : Nat) (hd0 : d ≠ 0) :
    evaluator n d = some
      { stdout := printfLine (printfLine (printfLine (printfLine "" "N = " n) "D = " d)
          "Q = " ((n / d) % U64_MOD)) "R = " ((n % d) % U64_MOD)
        exitCode := 0
        Q := (n / d) % U64_MOD
        R := (n % d) % U64_MOD } := by
  simp [evaluator, udiv64, urem64, hd0]

theorem div_mod_U64 (n d : Nat) (hn : n < U64_MOD) :
    (n / d) % U64_MOD = n / d := by
  exact Nat.mod_eq_of_lt (lt_of_le_of_lt (Nat.div_le_self n d) hn)

theorem mod_mod_U64 (n d : Nat) (hn : n < U64_MOD) :
    (n % d) % U64_MOD = n % d := by
  exact Nat.mod_eq_of_lt (lt_of_le_of_lt (Nat.mod_le n d) hn)

/-! ## Facts about the hexadecimal conversion -/

theorem hexDigits_ne_nil (fuel v : Nat) : hexDigits (fuel + 1) v ≠ [] := by
  unfold hexDigits
  split <;> simp

theorem hexDigits_length_le (fuel v : Nat) : (hexDigits fuel v).length ≤ fuel := by
  induction fuel generalizing v with
  | zero => simp [hexDigits]
  | succ k ih =>
    unfold hexDigits
    split
    · simp
    · have := ih (v / 16)
      simp only [List.length_append, List.length_singleton]
      omega

theorem hexDigits_lt (fuel v : Nat) : ∀ x ∈ hexDigits fuel v, x < 16 := by
  induction fuel generalizing v with
  | zero => simp [hexDigits]
  | succ k ih =>
    unfold hexDigits
    split
    · intro x hx
      simp only [List.mem_singleton] at hx
      omega
    · intro x hx
      simp only [List.mem_append, List.mem_singleton] at hx
      rcases hx with hx | hx
      · exact ih _ x hx
      · omega

theorem hexDigits_head (fuel v : Nat) (hv0 : v ≠ 0) (hv : v < 16 ^ fuel) :
    ∃ h t, hexDigits fuel v = h :: t ∧ h ≠ 0 := by
  induction fuel generalizing v with
  | zero =>
    simp only [pow_zero, Nat.lt_one_iff] at hv
    exact absurd hv hv0
  | succ k ih =>
    unfold hexDigits
    split
    · exact ⟨v, [], rfl, hv0⟩
    · have h1 : v / 16 ≠ 0 := by omega
      have h2 : v / 16 < 16 ^ k := by
        rw [Nat.div_lt_iff_lt_mul (by decide)]
        rw [pow_succ] at hv
        exact hv
      obtain ⟨h, t, ht, hh⟩ := ih (v / 16) h1 h2
      exact ⟨h, t ++ [v % 16], by rw [ht]; rfl, hh⟩

theorem hexDigitChar_isLowerHex : ∀ d, d < 16 → isLowerHex (hexDigitChar d) = true := by
  decide

theorem hexDigitChar_eq_zero : ∀ d, d < 16 → hexDigitChar d = '0' → d = 0 := by
  decide

theorem isLowerHex_ne_newline (c : Char) (h : isLowerHex c = true) : c ≠ '\n' := by
  rintro rfl
  exact absurd h (by decide)

theorem isLowerHex_ne_x (c : Char) (h : isLowerHex c = true) : c ≠ 'x' := by
  rintro rfl
  exact absurd h (by decide)

theorem toHex_data (v : Nat) : (toHex v).data = (hexDigits 16 v).map hexDigitChar := rfl

theorem toHex_isLowerHex (v : Nat) : ∀ c ∈ (toHex v).data, isLowerHex c = true := by
  intro c hc
  rw [toHex_data, List.mem_map] at hc
  obtain ⟨x, hx, rfl⟩ := hc
  exact hexDigitChar_isLowerHex x (hexDigits_lt 16 v x hx)

theorem toHex_length_pos (v : Nat) : 1 ≤ (toHex v).data.length := by
  rw [toHex_data, List.length_map]
  exact List.length_pos.mpr (hexDigits_ne_nil 15 v)

theorem toHex_length_le (v : Nat) : (toHex v).data.length ≤ 16 := by
  rw [toHex_data, List.length_map]
  exact hexDigits_length_le 16 v

/-! ## Facts about lines -/

theorem splitLines_append_line (a rest : List Char) (ha : ∀ c ∈ a, c ≠ '\n') :
    splitLines (a ++ '\n' :: rest) = (a ++ ['\n']) :: splitLines rest := by
  induction a with
  | nil => simp [splitLines]
  | cons c cs ih =>
    have hc : c ≠ '\n' := ha c (List.mem_cons_self c cs)
    have hcs : ∀ x ∈ cs, x ≠ '\n' := fun x hx => ha x (List.mem_cons_of_mem c hx)
    have hstep : splitLines (c :: (cs ++ '\n' :: rest)) =
        (match splitLines (cs ++ '\n' :: rest) with
          | [] => [[c]]
          | l :: ls => (c :: l) :: ls) := by
      simp only [splitLines, hc, if_false]
    rw [List.cons_append, hstep, ih hcs]
    rfl

theorem label_hex_no_newline (l : Char) (hl : l ≠ '\n') (v : Nat) :
    ∀ c ∈ l :: ' ' :: '=' :: ' ' :: (toHex v).data, c ≠ '\n' := by
  intro c hc
  simp only [List.mem_cons] at hc
  rcases hc with rfl | rfl | rfl | rfl | hc
  · exact hl
  · decide
  · decide
  · decide
  · exact isLowerHex_ne_newline c (toHex_isLowerHex v c hc)

theorem printfLine_data (out : String) (l : Char) (v : Nat) :
    (printfLine out (String.mk [l, ' ', '=', ' ']) v).data =
      out.data ++ ((l :: ' ' :: '=' :: ' ' :: (toHex v).data) ++ '\n' :: []) := by
  simp [printfLine, String.data_append]

theorem evaluator_stdout_lines (n d q r : Nat) :
    splitLines (printfLine (printfLine (printfLine (printfLine "" "N = " n) "D = " d)
        "Q = " q) "R = " r).data =
      [("N = " ++ toHex n ++ "\n").data, ("D = " ++ toHex d ++ "\n").data,
        ("Q = " ++ toHex q ++ "\n").data, ("R = " ++ toHex r ++ "\n").data] := by
  have e1 : ("N = " : String) = String.mk ['N', ' ', '=', ' '] := rfl
  have e2 : ("D = " : String) = String.mk ['D', ' ', '=', ' '] := rfl
  have e3 : ("Q = " : String) = String.mk ['Q', ' ', '=', ' '] := rfl
  have e4 : ("R = " : String) = String.mk ['R', ' ', '=', ' '] := rfl
  rw [e1, e2, e3, e4]
  have hnl : ("\n" : String).data = ['\n'] := rfl
  simp only [printfLine_data, String.data_append, hnl, List.append_assoc, List.nil_append,
    List.singleton_append, List.cons_append]
  have hN := splitLines_append_line _
    ('D' :: ' ' :: '=' :: ' ' :: ((toHex d).data ++ '\n' ::
      'Q' :: ' ' :: '=' :: ' ' :: ((toHex q).data ++ '\n' ::
        'R' :: ' ' :: '=' :: ' ' :: ((toHex r).data ++ ['\n']))))
    (label_hex_no_newline 'N' (by decide) n)
  have hD := splitLines_append_line _
    ('Q' :: ' ' :: '=' :: ' ' :: ((toHex q).data ++ '\n' ::
      'R' :: ' ' :: '=' :: ' ' :: ((toHex r).data ++ ['\n'])))
    (label_hex_no_newline 'D' (by decide) d)
  have hQ := splitLines_append_line _
    ('R' :: ' ' :: '=' :: ' ' :: ((toHex r).data ++ ['\n']))
    (label_hex_no_newline 'Q' (by decide) q)
  have hR := splitLines_append_line _ [] (label_hex_no_newline 'R' (by decide) r)
  simp only [List.cons_append] at hN hD hQ hR
  rw [hN, hD, hQ, hR]
  rfl

theorem matchesLinePattern_label_hex (l : Char) (hl : l ∈ ['N', 'D', 'Q', 'R']) (v : Nat) :
    matchesLinePattern ((String.mk [l, ' ', '=', ' '] ++ toHex v ++ "\n").data) = true := by
  have hd : (String.mk [l, ' ', '=', ' '] ++ toHex v ++ "\n").data =
      l :: ' ' :: '=' :: ' ' :: ((toHex v).data ++ ['\n']) := by
    simp [String.data_append]
  rw [hd]
  have hpos := toHex_length_pos v
  have hle := toHex_length_le v
  have hall := toHex_isLowerHex v
  simp only [matchesLinePattern, List.headD_cons, List.drop_succ_cons, List.drop_zero,
    List.take_succ_cons, List.take_zero, List.dropLast_concat, List.getLast?_append,
    Bool.and_eq_true, decide_eq_true_eq, List.all_eq_true]
  refine ⟨⟨⟨⟨⟨?_, ?_⟩, ?_⟩, hpos⟩, hle⟩, hall⟩
  · simpa using hl
  · decide
  · simp

/-! ## Facts about reading hexadecimal text back -/

theorem hexCharVal_hexDigitChar : ∀ d, d < 16 → hexCharVal (hexDigitChar d) = d := by
  decide

theorem readHex_concat (s : List Char) (c : Char) :
    readHex (s ++ [c]) = readHex s * 16 + hexCharVal c := by
  simp [readHex, List.foldl_append]

theorem readHex_hexDigits (fuel v : Nat) (hv : v < 16 ^ fuel) :
    readHex ((hexDigits fuel v).map hexDigitChar) = v := by
  induction fuel generalizing v with
  | zero =>
    simp only [pow_zero, Nat.lt_one_iff] at hv
    subst hv
    rfl
  | succ k ih =>
    unfold hexDigits
    split
    · rename_i hlt
      have := readHex_concat [] (hexDigitChar v)
      simp only [List.nil_append] at this
      have h0 : readHex [] = 0 := rfl
      rw [List.map_singleton, this, hexCharVal_hexDigitChar v hlt, h0]
      omega
    · have h2 : v / 16 < 16 ^ k := by
        rw [Nat.div_lt_iff_lt_mul (by decide)]
        rw [pow_succ] at hv
        exact hv
      rw [List.map_append, List.map_singleton, readHex_concat, ih (v / 16) h2,
        hexCharVal_hexDigitChar (v % 16) (Nat.mod_lt v (by decide))]
      omega

theorem readHex_toHex (v : Nat) (hv : v < U64_MOD) : readHex (toHex v).data = v :=
  readHex_hexDigits 16 v hv

theorem decodeLine_label_hex (l : Char) (v : Nat) (hv : v < U64_MOD) :
    decodeLine ((String.mk [l, ' ', '=', ' '] ++ toHex v ++ "\n").data) = v := by
  have hd : (String.mk [l, ' ', '=', ' '] ++ toHex v ++ "\n").data =
      l :: ' ' :: '=' :: ' ' :: ((toHex v).data ++ ['\n']) := by
    simp [String.data_append]
  rw [hd]
  simp only [decodeLine, List.drop_succ_cons, List.drop_zero, List.dropLast_concat]
  exact readHex_toHex v hv

/-! ## Claims -/

/-- C1: for all unsigned 64-bit `n`, `d` with `d ≠ 0` the evaluator runs to
completion and its quotient `Q` and remainder `R` satisfy `n = Q·d + R` and
`0 ≤ R < d` over the natural numbers. -/
theorem C1_division_invariant (n d : Nat) (hn : n < U64_MOD) (_hd : d < U64_MOD)
    (hd0 : d ≠ 0) :
    ∃ o, evaluator n d = some o ∧ n = o.Q * d + o.R ∧ 0 ≤ o.R ∧ o.R < d := by
  refine ⟨_, evaluator_of_ne_zero n d hd0, ?_, Nat.zero_le _, ?_⟩
  · simp only [div_mod_U64 n d hn, mod_mod_U64 n d hn]
    rw [Nat.mul_comm]
    exact (Nat.div_add_mod n d).symm
  · simp only [mod_mod_U64 n d hn]
    exact Nat.mod_lt n (Nat.pos_of_ne_zero hd0)

theorem C1_division_invariant_witness :
    ∃ o, evaluator 100 7 = some o ∧ 100 = o.Q * 7 + o.R ∧ 0 ≤ o.R ∧ o.R < 7 :=
  C1_division_invariant 100 7 (by decide) (by decide) (by decide)

/-- C2: for the literal operands of `main`, the quotient `Q = N/D` is `0x1`. -/
theorem C2_literal_quotient :
    udiv64 N D = some 0x1 ∧ ∃ o, main = some o ∧ o.Q = 0x1 := by
  refine ⟨by decide, _, evaluator_of_ne_zero N D (by decide), by decide⟩

/-- C3 (as stated, refuted): the remainder `N%D` that `main` prints is not
`0x46ae2a85d866b5fb`. -/
theorem C3_literal_remainder_refuted :
    urem64 N D ≠ some 0x46ae2a85d866b5fb ∧
      ∃ o, main = some o ∧ o.R ≠ 0x46ae2a85d866b5fb := by
  refine ⟨by decide, _, evaluator_of_ne_zero N D (by decide), by decide⟩

/-- C3 (amended): for the literal operands of `main`, the remainder `N%D` is
`0x466e2a863866b5fb`, and the text written by `main` ends with the line
`R = 466e2a863866b5fb`. -/
theorem C3_literal_remainder :
    urem64 N D = some 0x466e2a863866b5fb ∧
      ∃ o, main = some o ∧ o.R = 0x466e2a863866b5fb ∧
        o.stdout.data.drop 48 = "R = 466e2a863866b5fb\n".data := by
  refine ⟨by decide, _, evaluator_of_ne_zero N D (by decide), by decide, by decide⟩

/-- C4: for the literal operands of `main`, the remainder `N%D` equals `N − D`,
and `D·1 + R = N` where the sum stays below `2^64`. -/
theorem C4_literal_remainder_is_difference :
    ∃ o, main = some o ∧ o.R = N - D ∧ D ≤ N ∧ D * 1 + o.R = N ∧
      D * 1 + o.R < U64_MOD ∧ toU64 (D * 1 + o.R) = N := by
  refine ⟨_, evaluator_of_ne_zero N D (by decide), ?_, ?_, ?_, ?_, ?_⟩ <;> decide

/-- C5: for all unsigned 64-bit `n`, `d` with `d ≠ 0`, the quotient is the floor
of the exact rational quotient, the remainder is `n − Q·d` evaluated in 64-bit
arithmetic, and `Q·d ≤ n`, so that neither the product nor the difference
wraps. -/
theorem C5_floor_and_remainder (n d : Nat) (hn : n < U64_MOD) (_hd : d < U64_MOD)
    (hd0 : d ≠ 0) :
    ∃ o, evaluator n d = some o ∧
      o.Q = ⌊(n : ℚ) / (d : ℚ)⌋₊ ∧
      o.R = specRemainder n d o.Q ∧
      o.Q * d ≤ n ∧
      mul64 o.Q d = o.Q * d ∧
      sub64 n (mul64 o.Q d) = n - o.Q * d := by
  have hle : n / d * d ≤ n := Nat.div_mul_le_self n d
  have hlt : n / d * d < U64_MOD := lt_of_le_of_lt hle hn
  have hmul : mul64 (n / d) d = n / d * d := Nat.mod_eq_of_lt hlt
  have hsub : sub64 n (n / d * d) = n - n / d * d := by
    unfold sub64
    rw [Nat.mod_eq_of_lt hlt]
    have h1 : n + U64_MOD - n / d * d = (n - n / d * d) + U64_MOD := by omega
    rw [h1, Nat.add_mod_right]
    exact Nat.mod_eq_of_lt (lt_of_le_of_lt (Nat.sub_le _ _) hn)
  refine ⟨_, evaluator_of_ne_zero n d hd0, ?_, ?_, ?_, ?_, ?_⟩
  · simp only [div_mod_U64 n d hn]
    exact (Nat.floor_div_eq_div n d).symm
  · simp only [div_mod_U64 n d hn, mod_mod_U64 n d hn, specRemainder, hmul, hsub]
    have := Nat.div_add_mod n d
    have h2 : n / d * d = d * (n / d) := Nat.mul_comm _ _
    omega
  · simpa only [div_mod_U64 n d hn] using hle
  · simpa only [div_mod_U64 n d hn] using hmul
  · simp only [div_mod_U64 n d hn, hmul, hsub]

theorem C5_floor_and_remainder_witness :
    ∃ o, evaluator 100 7 = some o ∧
      o.Q = ⌊((100 : Nat) : ℚ) / ((7 : Nat) : ℚ)⌋₊ ∧
      o.R = specRemainder 100 7 o.Q ∧
      o.Q * 7 ≤ 100 ∧
      mul64 o.Q 7 = o.Q * 7 ∧
      sub64 100 (mul64 o.Q 7) = 100 - o.Q * 7 :=
  C5_floor_and_remainder 100 7 (by decide) (by decide) (by decide)

/-- C6: the output of `main` is exactly four lines, in the order N, D, Q, R;
each is its label, the hexadecimal text of the value (`N`, `D`, `N/D`, `N%D`)
and one line break, and nothing else is written. -/
theorem C6_main_output :
    ∃ q r o, udiv64 N D = some q ∧ urem64 N D = some r ∧ main = some o ∧
      o.stdout = "" ++ ("N = " ++ toHex N ++ "\n") ++ ("D = " ++ toHex D ++ "\n") ++
        ("Q = " ++ toHex q ++ "\n") ++ ("R = " ++ toHex r ++ "\n") ∧
      splitLines o.stdout.data =
        [("N = " ++ toHex N ++ "\n").data, ("D = " ++ toHex D ++ "\n").data,
          ("Q = " ++ toHex q ++ "\n").data, ("R = " ++ toHex r ++ "\n").data] ∧
      o.stdout = "N = c9649f05a8e1a8bb\nD = 82f6747f707af2c0\nQ = 1\nR = 466e2a863866b5fb\n" := by
  refine ⟨(N / D) % U64_MOD, (N % D) % U64_MOD, _, by decide, by decide,
    evaluator_of_ne_zero N D (by decide), rfl, evaluator_stdout_lines _ _ _ _, by decide⟩

/-- C7: for every unsigned 64-bit `v` the hexadecimal text has between 1 and 16
characters, all in `0-9a-f`, no leading zero unless `v = 0` (then it is `0`),
and no `0x` prefix; and for all operands with `d ≠ 0` every line the evaluator
writes matches `^[NDQR] = [0-9a-f]{1,16}\n$`. -/
theorem C7_hex_format (n d v : Nat) (_hn : n < U64_MOD) (_hd : d < U64_MOD) (hd0 : d ≠ 0)
    (hv : v < U64_MOD) :
    (1 ≤ (toHex v).length ∧ (toHex v).length ≤ 16 ∧
      (∀ c ∈ (toHex v).data, isLowerHex c = true) ∧
      (v ≠ 0 → (toHex v).data.head? ≠ some '0') ∧
      (v = 0 → toHex v = "0") ∧
      (toHex v).data.take 2 ≠ ['0', 'x']) ∧
    ∃ o, evaluator n d = some o ∧ splitLines o.stdout.data ≠ [] ∧
      ∀ l ∈ splitLines o.stdout.data, matchesLinePattern l = true := by
  refine ⟨⟨toHex_length_pos v, toHex_length_le v, toHex_isLowerHex v, ?_, ?_, ?_⟩,
    _, evaluator_of_ne_zero n d hd0, ?_, ?_⟩
  · intro hv0
    obtain ⟨h, t, ht, hh⟩ := hexDigits_head 16 v hv0 hv
    have hlt : h < 16 := hexDigits_lt 16 v h (by rw [ht]; exact List.mem_cons_self h t)
    rw [toHex_data, ht]
    simp only [List.map_cons, List.head?_cons, ne_eq, Option.some.injEq]
    exact fun hc => hh (hexDigitChar_eq_zero h hlt hc)
  · rintro rfl
    decide
  · intro hx
    have hmem : 'x' ∈ (toHex v).data := by
      have h1 : 'x' ∈ (toHex v).data.take 2 := by rw [hx]; simp
      exact List.mem_of_mem_take h1
    exact isLowerHex_ne_x 'x' (toHex_isLowerHex v 'x' hmem) rfl
  · simp only [evaluator_stdout_lines]
    simp
  · simp only [evaluator_stdout_lines]
    intro l hl
    simp only [List.mem_cons, List.mem_singleton, List.not_mem_nil, or_false] at hl
    rcases hl with rfl | rfl | rfl | rfl
    · exact matchesLinePattern_label_hex 'N' (by decide) n
    · exact matchesLinePattern_label_hex 'D' (by decide) d
    · exact matchesLinePattern_label_hex 'Q' (by decide) _
    · exact matchesLinePattern_label_hex 'R' (by decide) _

theorem C7_hex_format_witness :
    (1 ≤ (toHex 0xab).length ∧ (toHex 0xab).length ≤ 16 ∧
      (∀ c ∈ (toHex 0xab).data, isLowerHex c = true) ∧
      (0xab ≠ 0 → (toHex 0xab).data.head? ≠ some '0') ∧
      (0xab = 0 → toHex 0xab = "0") ∧
      (toHex 0xab).data.take 2 ≠ ['0', 'x']) ∧
    ∃ o, evaluator 100 7 = some o ∧ splitLines o.stdout.data ≠ [] ∧
      ∀ l ∈ splitLines o.stdout.data, matchesLinePattern l = true :=
  C7_hex_format 100 7 0xab (by decide) (by decide) (by decide) (by decide)

/-- C8: for every unsigned 64-bit `n`, the evaluator with divisor 1 yields
`Q = n` and `R = 0`. -/
theorem C8_divisor_one (n : Nat) (hn : n < U64_MOD) :
    ∃ o, evaluator n 1 = some o ∧ o.Q = n ∧ o.R = 0 := by
  refine ⟨_, evaluator_of_ne_zero n 1 (by decide), ?_, ?_⟩
  · simp only [Nat.div_one]
    exact Nat.mod_eq_of_lt hn
  · simp [Nat.mod_one]

theorem C8_divisor_one_witness :
    ∃ o, evaluator 0xffffffffffffffff 1 = some o ∧ o.Q = 0xffffffffffffffff ∧ o.R = 0 :=
  C8_divisor_one 0xffffffffffffffff (by decide)

/-- C9: for every unsigned 64-bit `d ≠ 0`, the evaluator with dividend 0 yields
`Q = 0` and `R = 0`. -/
theorem C9_dividend_zero (d : Nat) (_hd : d < U64_MOD) (hd0 : d ≠ 0) :
    ∃ o, evaluator 0 d = some o ∧ o.Q = 0 ∧ o.R = 0 := by
  refine ⟨_, evaluator_of_ne_zero 0 d hd0, ?_, ?_⟩ <;> simp

theorem C9_dividend_zero_witness :
    ∃ o, evaluator 0 0x82f6747f707af2c0 = some o ∧ o.Q = 0 ∧ o.R = 0 :=
  C9_dividend_zero 0x82f6747f707af2c0 (by decide) (by decide)

/-- C10: the literal divisor of `main` is non-zero, so neither `N/D` nor `N%D`
takes the error branch and `main` runs to completion with a result. -/
theorem C10_main_completes :
    D ≠ 0 ∧ (udiv64 N D).isSome = true ∧ (urem64 N D).isSome = true ∧
      main.isSome = true ∧ ∃ o, main = some o ∧ o.exitCode = 0 := by
  refine ⟨by decide, by decide, by decide, by decide, _,
    evaluator_of_ne_zero N D (by decide), rfl⟩

/-- C11: both literal operands have bit 63 set, and dividing the same bit
patterns as two's-complement signed integers with truncation toward zero gives
a quotient pattern and a remainder pattern that both differ from the unsigned
results of `main`. -/
theorem C11_signed_division_differs :
    N.testBit 63 = true ∧ D.testBit 63 = true ∧
      ∃ o sq sr, main = some o ∧ sdiv64 N D = some sq ∧ srem64 N D = some sr ∧
        sq ≠ o.Q ∧ sr ≠ o.R ∧ sq = 0 ∧ sr = N := by
  refine ⟨by decide, by decide, _, 0, N, evaluator_of_ne_zero N D (by decide),
    by decide, by decide, by decide, by decide, rfl, rfl⟩

/-- C12: for all unsigned 64-bit `n`, `d` with `d ≠ 0` the exact quotient and
remainder are at most `n` and so below `2^64`; the 64-bit operators return
exactly the unbounded natural-number quotient and remainder. -/
theorem C12_no_overflow (n d : Nat) (hn : n < U64_MOD) (_hd : d < U64_MOD) (hd0 : d ≠ 0) :
    n / d ≤ n ∧ n % d ≤ n ∧ n / d < U64_MOD ∧ n % d < U64_MOD ∧
      udiv64 n d = some (n / d) ∧ urem64 n d = some (n % d) ∧
      ∃ o, evaluator n d = some o ∧ o.Q = n / d ∧ o.R = n % d := by
  refine ⟨Nat.div_le_self n d, Nat.mod_le n d,
    lt_of_le_of_lt (Nat.div_le_self n d) hn, lt_of_le_of_lt (Nat.mod_le n d) hn,
    ?_, ?_, _, evaluator_of_ne_zero n d hd0, div_mod_U64 n d hn, mod_mod_U64 n d hn⟩
  · simp only [udiv64, hd0, if_false, div_mod_U64 n d hn]
  · simp only [urem64, hd0, if_false, mod_mod_U64 n d hn]

theorem C12_no_overflow_witness :
    0xffffffffffffffff / 3 ≤ 0xffffffffffffffff ∧ 0xffffffffffffffff % 3 ≤ 0xffffffffffffffff ∧
      0xffffffffffffffff / 3 < U64_MOD ∧ 0xffffffffffffffff % 3 < U64_MOD ∧
      udiv64 0xffffffffffffffff 3 = some (0xffffffffffffffff / 3) ∧
      urem64 0xffffffffffffffff 3 = some (0xffffffffffffffff % 3) ∧
      ∃ o, evaluator 0xffffffffffffffff 3 = some o ∧ o.Q = 0xffffffffffffffff / 3 ∧
        o.R = 0xffffffffffffffff % 3 :=
  C12_no_overflow 0xffffffffffffffff 3 (by decide) (by decide) (by decide)

/-- C13 (as stated, refuted): in the lines `main` prints, the text before the
first hexadecimal digit does not have length two. -/
theorem C13_label_length_refuted :
    ∃ o, main = some o ∧ splitLines o.stdout.data ≠ [] ∧
      ∀ l ∈ splitLines o.stdout.data, (labelOf l).length ≠ 2 := by
  refine ⟨_, evaluator_of_ne_zero N D (by decide), by decide, by decide⟩

/-- C13 (amended): in each of the four lines `main` prints, the hexadecimal
value is immediately preceded by a four-character label, `N = `, `D = `,
`Q = ` and `R = ` in this order: the text before the first hexadecimal digit
has length four. -/
theorem C13_label_length :
    ∃ o, main = some o ∧
      (splitLines o.stdout.data).map labelOf =
        ["N = ".data, "D = ".data, "Q = ".data, "R = ".data] ∧
      (splitLines o.stdout.data).map (fun l => (labelOf l).length) = [4, 4, 4, 4] ∧
      (splitLines o.stdout.data).map (fun l => l.drop 4) =
        [(toHex N ++ "\n").data, (toHex D ++ "\n").data, (toHex o.Q ++ "\n").data,
          (toHex o.R ++ "\n").data] := by
  refine ⟨_, evaluator_of_ne_zero N D (by decide), by decide, by decide, by decide⟩

/-- C14: for all unsigned 64-bit `n`, `d` with `d ≥ 2^63` the quotient is 0 or
1; it is 1 exactly when `n ≥ d`, and then the remainder is `n − d`; it is 0
exactly when `n < d`, and then the remainder is `n`. -/
theorem C14_high_bit_divisor (n d : Nat) (hn : n < U64_MOD) (_hd : d < U64_MOD)
    (hd63 : 2 ^ 63 ≤ d) :
    ∃ o, evaluator n d = some o ∧ (o.Q = 0 ∨ o.Q = 1) ∧
      (o.Q = 1 ↔ d ≤ n) ∧ (d ≤ n → o.R = n - d) ∧
      (o.Q = 0 ↔ n < d) ∧ (n < d → o.R = n) := by
  have hd0 : d ≠ 0 := by
    have : 0 < 2 ^ 63 := by decide
    omega
  have hU : U64_MOD = 2 * 2 ^ 63 := by decide
  have hq2 : n / d < 2 := by
    rw [Nat.div_lt_iff_lt_mul (Nat.pos_of_ne_zero hd0)]
    omega
  have hdm : d * (n / d) + n % d = n := Nat.div_add_mod n d
  have hml : n % d < d := Nat.mod_lt n (Nat.pos_of_ne_zero hd0)
  refine ⟨_, evaluator_of_ne_zero n d hd0, ?_⟩
  simp only [div_mod_U64 n d hn, mod_mod_U64 n d hn]
  generalize n / d = q at hq2 hdm
  generalize n % d = r at hdm hml
  interval_cases q
  · simp only [Nat.mul_zero, Nat.zero_add] at hdm
    subst hdm
    refine ⟨Or.inl rfl, ?_, ?_, ?_, ?_⟩
    · constructor
      · intro h; exact absurd h (by decide)
      · intro h; omega
    · intro h; omega
    · exact ⟨fun _ => hml, fun _ => rfl⟩
    · intro _; rfl
  · simp only [Nat.mul_one] at hdm
    refine ⟨Or.inr rfl, ?_, ?_, ?_, ?_⟩
    · exact ⟨fun _ => by omega, fun _ => rfl⟩
    · intro _; omega
    · constructor
      · intro h; exact absurd h (by decide)
      · intro h; omega
    · intro h; omega

theorem C14_high_bit_divisor_witness :
    ∃ o, evaluator 0xc9649f05a8e1a8bb 0x82f6747f707af2c0 = some o ∧ (o.Q = 0 ∨ o.Q = 1) ∧
      (o.Q = 1 ↔ 0x82f6747f707af2c0 ≤ 0xc9649f05a8e1a8bb) ∧
      (0x82f6747f707af2c0 ≤ 0xc9649f05a8e1a8bb →
        o.R = 0xc9649f05a8e1a8bb - 0x82f6747f707af2c0) ∧
      (o.Q = 0 ↔ 0xc9649f05a8e1a8bb < 0x82f6747f707af2c0) ∧
      (0xc9649f05a8e1a8bb < 0x82f6747f707af2c0 → o.R = 0xc9649f05a8e1a8bb) :=
  C14_high_bit_divisor 0xc9649f05a8e1a8bb 0x82f6747f707af2c0 (by decide) (by decide)
    (by decide)

/-- C15: for all unsigned 64-bit `n`, `d` with `d ≠ 0`, the pair `(Q, R)` of the
evaluator satisfies `n = Q·d + R` and `R < d`, and every pair of natural numbers
`(q, r)` with `n = q·d + r` and `r < d` equals it. -/
theorem C15_quotient_remainder_unique (n d q r : Nat) (hn : n < U64_MOD) (_hd : d < U64_MOD)
    (hd0 : d ≠ 0) (hqr : n = q * d + r) (hr : r < d) :
    ∃ o, evaluator n d = some o ∧ n = o.Q * d + o.R ∧ o.R < d ∧ q = o.Q ∧ r = o.R := by
  have hpos : 0 < d := Nat.pos_of_ne_zero hd0
  have huniq : n / d = q ∧ n % d = r :=
    (Nat.div_mod_unique hpos).mpr ⟨by rw [hqr, Nat.mul_comm d q, Nat.add_comm], hr⟩
  have hdm : d * (n / d) + n % d = n := Nat.div_add_mod n d
  refine ⟨_, evaluator_of_ne_zero n d hd0, ?_, ?_, ?_, ?_⟩
  · simp only [div_mod_U64 n d hn, mod_mod_U64 n d hn]
    rw [Nat.mul_comm]
    exact hdm.symm
  · simp only [mod_mod_U64 n d hn]
    exact Nat.mod_lt n hpos
  · simp only [div_mod_U64 n d hn]
    exact huniq.1.symm
  · simp only [mod_mod_U64 n d hn]
    exact huniq.2.symm

theorem C15_quotient_remainder_unique_witness :
    ∃ o, evaluator 100 7 = some o ∧ 100 = o.Q * 7 + o.R ∧ o.R < 7 ∧ 14 = o.Q ∧ 2 = o.R :=
  C15_quotient_remainder_unique 100 7 14 2 (by decide) (by decide) (by decide) (by decide)
    (by decide)

/-- C16: the hexadecimal text is lossless: for all unsigned 64-bit `v`, `w`,
reading the text of `v` back as a base-16 numeral gives `v`, equal texts come
only from equal values, and for operands with `d ≠ 0` the four lines the
evaluator writes read back as `n`, `d`, `Q` and `R`. -/
theorem C16_hex_lossless (v w n d : Nat) (hv : v < U64_MOD) (hw : w < U64_MOD)
    (hn : n < U64_MOD) (hd : d < U64_MOD) (hd0 : d ≠ 0) :
    readHex (toHex v).data = v ∧ (toHex v = toHex w → v = w) ∧
      ∃ o, evaluator n d = some o ∧
        (splitLines o.stdout.data).map decodeLine = [n, d, o.Q, o.R] := by
  refine ⟨readHex_toHex v hv, ?_, _, evaluator_of_ne_zero n d hd0, ?_⟩
  · intro h
    have h1 := readHex_toHex v hv
    rw [h, readHex_toHex w hw] at h1
    exact h1.symm
  · have hQ : (n / d) % U64_MOD < U64_MOD := Nat.mod_lt _ (by decide)
    have hR : (n % d) % U64_MOD < U64_MOD := Nat.mod_lt _ (by decide)
    simp only [evaluator_stdout_lines, List.map_cons, List.map_nil]
    have eN := decodeLine_label_hex 'N' n hn
    have eD := decodeLine_label_hex 'D' d hd
    have eQ := decodeLine_label_hex 'Q' _ hQ
    have eR := decodeLine_label_hex 'R' _ hR
    exact congrArg₂ List.cons eN (congrArg₂ List.cons eD (congrArg₂ List.cons eQ
      (congrArg₂ List.cons eR rfl)))

theorem C16_hex_lossless_witness :
    readHex (toHex 0xab).data = 0xab ∧ (toHex 0xab = toHex 0xab → 0xab = 0xab) ∧
      ∃ o, evaluator 100 7 = some o ∧
        (splitLines o.stdout.data).map decodeLine = [100, 7, o.Q, o.R] :=
  C16_hex_lossless 0xab 0xab 100 7 (by decide) (by decide) (by decide) (by decide) (by decide)

end Div
